import Mathlib

/-!
Verification of the 500lines bytecode compiler (`bytecode-compiler/bytecomp.py`).

The Python source compiles a small statement language (assignments,
arithmetic, `if`, `while`, parameterless `def`, calls) to CPython 3.4
bytecode.  Byte strings are modelled as `List Nat` whose entries are bytes
(`< 256`); `bytes(...)` construction rejects any entry outside `[0, 256)`,
which we model with `Option`.  Opcode numbers and the has-argument
threshold are the host interpreter's `dis` table (CPython 3.4), which the
source imports; the relevant constants are reproduced below.

Fatal conditions in the Python source (assertion failures, `bytes()` range
errors, out-of-range indexing) are modelled as `none`.
-/

namespace Bytecomp

/-- `dis.HAVE_ARGUMENT`: opcodes below 90 take no argument and occupy one
byte; opcodes at or above 90 carry a 16-bit argument and occupy three
bytes. -/
def HAVE_ARGUMENT : Nat := 90

/-- `dis.hasjabs` for CPython 3.4: the opcodes whose argument is an
absolute jump target (`JUMP_IF_FALSE_OR_POP`, `JUMP_IF_TRUE_OR_POP`,
`JUMP_ABSOLUTE`, `POP_JUMP_IF_FALSE`, `POP_JUMP_IF_TRUE`,
`CONTINUE_LOOP`). -/
def hasjabs : List Nat := [111, 112, 113, 114, 115, 119]

/-- `encode(opcode, arg) = [opcode, arg % 256, arg // 256]`. -/
def encode (opcode arg : Nat) : List Nat := [opcode, arg % 256, arg / 256]

/-- `take_arg(opcode)` returns `lambda arg: bytes(encode(opcode, arg))`.
`bytes` demands every entry be a byte, so the call fails (fatally) exactly
when the opcode is no byte or the argument does not fit in 16 bits
(its high byte `arg / 256` would be 256 or more). -/
def take_arg (opcode arg : Nat) : Option (List Nat) :=
  if opcode < 256 ∧ arg < 65536 then some (encode opcode arg) else none

/-- `decode(bytecode, i) = bytecode[i+1] + 256 * bytecode[i+2]`.
Out-of-range indexing raises `IndexError` in Python, modelled as `none`. -/
def decode (bytecode : List Nat) (i : Nat) : Option Nat :=
  match bytecode.get? (i + 1), bytecode.get? (i + 2) with
  | some lo, some hi => some (lo + 256 * hi)
  | _, _ => none

/-- The slice assignment `result[i:i+3] = v` (used only with `i + 3`
within range and `v` of length 3, where it replaces three entries). -/
def splice3 (l : List Nat) (i : Nat) (v : List Nat) : List Nat :=
  l.take i ++ v ++ l.drop (i + 3)

/-- The loop of `fix_jumps`.  The scan reads opcode and raw argument from
the original `bytecode` and splices rewritten instructions into `result`.
Failure (`none`) covers the Python fatal cases: `decode` indexing past the
end, and a rewritten argument whose encoding is no longer made of bytes
(an absolute target above 65535, or a backward target that would be
negative).  Python detects the latter two only when `bytes(result)` is
built at the end, but a spliced instruction is never touched again
(later splices start at least three bytes further right), so failing at
the splice is equivalent. -/
def fix_jumps_aux (bytecode : List Nat) (i : Nat) (result : List Nat) :
    Option (List Nat) :=
  if h : i < bytecode.length then
    let opcode := bytecode.getD i 0
    let step := if opcode < HAVE_ARGUMENT then 1 else 3
    if opcode ∈ hasjabs then
      match decode bytecode i with
      | none => none
      | some L =>
        let target := i + 3 + L
        if target < 65536 then
          fix_jumps_aux bytecode (i + step) (splice3 result i (encode opcode target))
        else none
    else if opcode = 255 then
      -- op.JUMP_BACK: rewrite to JUMP_ABSOLUTE (opcode 113).
      match decode bytecode i with
      | none => none
      | some L =>
        if L ≤ i ∧ i - L < 65536 then
          fix_jumps_aux bytecode (i + step) (splice3 result i (encode 113 (i - L)))
        else none
    else
      fix_jumps_aux bytecode (i + step) result
  else some result
termination_by bytecode.length - i
decreasing_by
  all_goals simp_wf
  all_goals split <;> omega

/-- `fix_jumps(bytecode)`: starts the scan at 0 on a copy of the input. -/
def fix_jumps (bytecode : List Nat) : Option (List Nat) :=
  fix_jumps_aux bytecode 0 bytecode

/-! ### The opcode table

`op` is populated from `dis.opmap`; a no-argument opcode becomes the
one-byte string `bytes((opcode,))`, a has-argument opcode becomes
`take_arg(opcode)`.  The opcode numbers are CPython 3.4's. -/

def op.POP_TOP : List Nat := [1]
def op.DUP_TOP : List Nat := [4]
def op.BINARY_POWER : List Nat := [19]
def op.BINARY_MULTIPLY : List Nat := [20]
def op.BINARY_MODULO : List Nat := [22]
def op.BINARY_ADD : List Nat := [23]
def op.BINARY_SUBTRACT : List Nat := [24]
def op.BINARY_FLOOR_DIVIDE : List Nat := [26]
def op.BINARY_TRUE_DIVIDE : List Nat := [27]
def op.BINARY_LSHIFT : List Nat := [62]
def op.BINARY_RSHIFT : List Nat := [63]
def op.BINARY_AND : List Nat := [64]
def op.BINARY_XOR : List Nat := [65]
def op.BINARY_OR : List Nat := [66]
def op.RETURN_VALUE : List Nat := [83]
def op.POP_BLOCK : List Nat := [87]
def op.STORE_NAME (arg : Nat) : Option (List Nat) := take_arg 90 arg
def op.LOAD_CONST (arg : Nat) : Option (List Nat) := take_arg 100 arg
def op.LOAD_NAME (arg : Nat) : Option (List Nat) := take_arg 101 arg
def op.JUMP_FORWARD (arg : Nat) : Option (List Nat) := take_arg 110 arg
def op.JUMP_ABSOLUTE (arg : Nat) : Option (List Nat) := take_arg 113 arg
def op.POP_JUMP_IF_FALSE (arg : Nat) : Option (List Nat) := take_arg 114 arg
def op.SETUP_LOOP (arg : Nat) : Option (List Nat) := take_arg 120 arg
def op.CALL_FUNCTION (arg : Nat) : Option (List Nat) := take_arg 131 arg
def op.MAKE_FUNCTION (arg : Nat) : Option (List Nat) := take_arg 132 arg

/-- `op.JUMP_BACK = take_arg(255)`: a fake opcode for internal use. -/
def op.JUMP_BACK (arg : Nat) : Option (List Nat) := take_arg 255 arg

/-! ### Constant values

The constant table of a code object holds `None`, numbers, strings and
nested code objects.  A code object is modelled by the fields the claims
concern: its resolved byte stream and its three materialized tables (the
remaining `types.CodeType` fields in `CodeGen.compile` are the same fixed
metadata for every produced object). -/

inductive Const where
  | cnone : Const
  | num : Int → Const
  | str : String → Const
  | code : List Nat → List Const → List String → List String → Const

mutual

/-- Value equality on constants, as Python's `dict` uses for table keys. -/
def Const.beq : Const → Const → Bool
  | .cnone, .cnone => true
  | .num a, .num b => a == b
  | .str a, .str b => a == b
  | .code b1 c1 n1 v1, .code b2 c2 n2 v2 =>
    b1 == b2 && Const.beqList c1 c2 && n1 == n2 && v1 == v2
  | _, _ => false

/-- Pointwise `Const.beq` on constant lists. -/
def Const.beqList : List Const → List Const → Bool
  | [], [] => true
  | a :: as_, b :: bs => Const.beq a b && Const.beqList as_ bs
  | _, _ => false

end

mutual

theorem Const.beq_iff : ∀ a b : Const, Const.beq a b = true ↔ a = b
  | .cnone, .cnone => by simp [Const.beq]
  | .cnone, .num _ => by simp [Const.beq]
  | .cnone, .str _ => by simp [Const.beq]
  | .cnone, .code _ _ _ _ => by simp [Const.beq]
  | .num _, .cnone => by simp [Const.beq]
  | .num _, .num _ => by simp [Const.beq]
  | .num _, .str _ => by simp [Const.beq]
  | .num _, .code _ _ _ _ => by simp [Const.beq]
  | .str _, .cnone => by simp [Const.beq]
  | .str _, .num _ => by simp [Const.beq]
  | .str _, .str _ => by simp [Const.beq]
  | .str _, .code _ _ _ _ => by simp [Const.beq]
  | .code _ _ _ _, .cnone => by simp [Const.beq]
  | .code _ _ _ _, .num _ => by simp [Const.beq]
  | .code _ _ _ _, .str _ => by simp [Const.beq]
  | .code b1 c1 n1 v1, .code b2 c2 n2 v2 => by
    simp only [Const.beq, Bool.and_eq_true, beq_iff_eq, Const.code.injEq]
    rw [Const.beqList_iff c1 c2]
    tauto

theorem Const.beqList_iff : ∀ a b : List Const, Const.beqList a b = true ↔ a = b
  | [], [] => by simp [Const.beqList]
  | [], _ :: _ => by simp [Const.beqList]
  | _ :: _, [] => by simp [Const.beqList]
  | a :: as_, b :: bs => by
    simp only [Const.beqList, Bool.and_eq_true, List.cons.injEq]
    rw [Const.beq_iff a b, Const.beqList_iff as_ bs]

end

instance : DecidableEq Const := fun a b => decidable_of_iff _ (Const.beq_iff a b)

/-! ### Intern tables

`make_table()` builds `defaultdict(lambda: len(table))`: looking a key up
inserts it with the next dense index if absent.  Since the index of a key
is the number of keys inserted before it, the table is modelled as the
list of its keys in insertion order; a key's index is its position.
`collect(table) = sorted(table, key=table.get)` lists the keys ordered by
assigned index, i.e. exactly in insertion order (3.4 dicts are unordered;
the sort recovers insertion order from the indices). -/

/-- The index of the first occurrence of `v` in the key list, if any. -/
def tblIdx {α : Type} [DecidableEq α] (v : α) : List α → Option Nat
  | [] => none
  | a :: t => if a = v then some 0 else (tblIdx v t).map (· + 1)

/-- `table[v]` on a `make_table()` table: insert-or-lookup returning the
updated table and the key's index. -/
def table_get {α : Type} [DecidableEq α] (table : List α) (v : α) :
    List α × Nat :=
  match tblIdx v table with
  | some i => (table, i)
  | none => (table ++ [v], table.length)

/-- `collect(table)`: keys sorted by assigned index = insertion order. -/
def collect {α : Type} (table : List α) : List α := table

/-- Interning a list of values left to right, returning the final table
and the index assigned to each value. -/
def internAll {α : Type} [DecidableEq α] (table : List α) :
    List α → List α × List Nat
  | [] => (table, [])
  | v :: rest =>
    let p := table_get table v
    let q := internAll p.1 rest
    (q.1, p.2 :: q.2)

/-! ### The AST

One constructor per supported `ast` node kind.  `Tgt.other` stands for
any non-`Name` assignment target (tuple, attribute, subscript, ...); the
source never inspects such a target beyond its class. -/

/-- An assignment target. -/
inductive Tgt where
  | name : String → Tgt
  | other : Tgt
deriving DecidableEq

/-- The supported binary operators (`CodeGen.ops2`). -/
inductive BinOp where
  | add | sub | mult | div | mod | pow
  | lshift | rshift | bitor | bitxor | bitand | floordiv
deriving DecidableEq

mutual
inductive Expr where
  | num : Int → Expr
  | str : String → Expr
  | name : String → Expr
  | binop : Expr → BinOp → Expr → Expr
  | call : Expr → List Expr → Expr

inductive Stmt where
  | functionDef : String → List String → List String → List Stmt → Stmt
  | ifStmt : Expr → List Stmt → List Stmt → Stmt
  | whileStmt : Expr → List Stmt → Stmt
  | exprStmt : Expr → Stmt
  | assign : List Tgt → Expr → Stmt
end

/-- The byte for each operator class in `CodeGen.ops2`. -/
def BinOp.byte : BinOp → Nat
  | .add => 23
  | .sub => 24
  | .mult => 20
  | .div => 27
  | .mod => 22
  | .pow => 19
  | .lshift => 62
  | .rshift => 63
  | .bitor => 66
  | .bitxor => 65
  | .bitand => 64
  | .floordiv => 26

/-! ### The code generator

A `CodeGen` instance owns three tables; `self.of` walks the tree and
returns a byte string per subtree, mutating the tables as it interns
constants and names.  The mutation is modelled by threading a `Gen`
record; a fatal error (failed assertion, 16-bit overflow, resolution
failure in a nested unit) is `none`. -/

/-- The three tables of one `CodeGen` instance. -/
structure Gen where
  constants : List Const
  names : List String
  varnames : List String
deriving DecidableEq

/-- `CodeGen.load_const`: intern the constant, emit `LOAD_CONST`. -/
def CodeGen.load_const (g : Gen) (c : Const) : Option (List Nat × Gen) :=
  let p := table_get g.constants c
  match op.LOAD_CONST p.2 with
  | none => none
  | some bs => some (bs, { g with constants := p.1 })

/-- `CodeGen.store`: intern the name, emit `STORE_NAME`. -/
def CodeGen.store (g : Gen) (nm : String) : Option (List Nat × Gen) :=
  let p := table_get g.names nm
  match op.STORE_NAME p.2 with
  | none => none
  | some bs => some (bs, { g with names := p.1 })

/-- The docstring test in `compile_body`: the first statement is an
expression statement holding a string literal. -/
def isDocstring : Stmt → Bool
  | .exprStmt (.str _) => true
  | _ => false

mutual

/-- `self.of` on one expression node (`visit_Num`, `visit_Str`,
`visit_Name`, `visit_BinOp`, `visit_Call`). -/
def ofExpr : Expr → Gen → Option (List Nat × Gen)
  | .num n, g => CodeGen.load_const g (.num n)
  | .str s, g => CodeGen.load_const g (.str s)
  | .name id, g =>
    let p := table_get g.names id
    match op.LOAD_NAME p.2 with
    | none => none
    | some bs => some (bs, { g with names := p.1 })
  | .binop l bop r, g =>
    match ofExpr l g with
    | none => none
    | some (lb, g1) =>
      match ofExpr r g1 with
      | none => none
      | some (rb, g2) => some (lb ++ rb ++ [bop.byte], g2)
  | .call f args, g =>
    match ofExpr f g with
    | none => none
    | some (fb, g1) =>
      match ofExprList args g1 with
      | none => none
      | some (ab, g2) =>
        match op.CALL_FUNCTION args.length with
        | none => none
        | some cb => some (fb ++ ab ++ cb, g2)
termination_by e _ => (sizeOf e, 0)

/-- `self.of` on an expression list (call arguments), concatenating the
pieces left to right. -/
def ofExprList : List Expr → Gen → Option (List Nat × Gen)
  | [], g => some ([], g)
  | e :: rest, g =>
    match ofExpr e g with
    | none => none
    | some (eb, g1) =>
      match ofExprList rest g1 with
      | none => none
      | some (rb, g2) => some (eb ++ rb, g2)
termination_by l _ => (sizeOf l, 0)

/-- `self.of` on one statement node (`visit_FunctionDef`, `visit_If`,
`visit_While`, `visit_Expr`, `visit_Assign`). -/
def ofStmt : Stmt → Gen → Option (List Nat × Gen)
  | .functionDef nm args decorators body, g =>
    -- assert not t.args.args; assert not t.decorator_list
    if args = [] ∧ decorators = [] then
      match compile_body body with
      | none => none
      | some c =>
        match CodeGen.load_const g c with
        | none => none
        | some (lc, g1) =>
          match op.MAKE_FUNCTION 0 with
          | none => none
          | some mk =>
            match CodeGen.store g1 nm with
            | none => none
            | some (st, g2) => some (lc ++ mk ++ st, g2)
    else none
  | .ifStmt test body orelse, g =>
    -- Python evaluates orelse first, then body, then test.
    match ofStmtList orelse g with
    | none => none
    | some (orelseB, g1) =>
      match ofStmtList body g1 with
      | none => none
      | some (bodyB0, g2) =>
        match op.JUMP_FORWARD orelseB.length with
        | none => none
        | some jf =>
          let bodyB := bodyB0 ++ jf
          match ofExpr test g2 with
          | none => none
          | some (testB, g3) =>
            match op.POP_JUMP_IF_FALSE bodyB.length with
            | none => none
            | some jc => some (testB ++ jc ++ bodyB ++ orelseB, g3)
  | .whileStmt test body, g =>
    match ofExpr test g with
    | none => none
    | some (testB, g1) =>
      match ofStmtList body g1 with
      | none => none
      | some (bodyB, g2) =>
        match op.POP_JUMP_IF_FALSE (bodyB.length + 3) with
        | none => none
        | some branch =>
          let inside := testB ++ branch ++ bodyB
          match op.JUMP_BACK inside.length with
          | none => none
          | some jb =>
            match op.SETUP_LOOP (inside ++ jb).length with
            | none => none
            | some su => some (su ++ (inside ++ jb) ++ op.POP_BLOCK, g2)
  | .exprStmt e, g =>
    match ofExpr e g with
    | none => none
    | some (eb, g1) => some (eb ++ op.POP_TOP, g1)
  | .assign targets v, g =>
    -- assert 1 == len(t.targets) and isinstance(t.targets[0], ast.Name)
    match targets with
    | [Tgt.name id] =>
      match ofExpr v g with
      | none => none
      | some (vb, g1) =>
        match CodeGen.store g1 id with
        | none => none
        | some (st, g2) => some (vb ++ op.DUP_TOP ++ st, g2)
    | _ => none
termination_by s _ => (sizeOf s, 0)

/-- `self.of` on a statement list, concatenating the pieces left to
right. -/
def ofStmtList : List Stmt → Gen → Option (List Nat × Gen)
  | [], g => some ([], g)
  | s :: rest, g =>
    match ofStmt s g with
    | none => none
    | some (sb, g1) =>
      match ofStmtList rest g1 with
      | none => none
      | some (rb, g2) => some (sb ++ rb, g2)
termination_by l _ => (sizeOf l, 0)

/-- `CodeGen.compile` applied to a statement list with tables `g`:
emit the body, append `LOAD_CONST None` and `RETURN_VALUE`, resolve the
jumps, and package the byte stream with the collected tables. -/
def genCompile (g : Gen) (body : List Stmt) : Option Const :=
  match ofStmtList body g with
  | none => none
  | some (bs, g1) =>
    match CodeGen.load_const g1 Const.cnone with
    | none => none
    | some (lc, g2) =>
      match fix_jumps (bs ++ lc ++ op.RETURN_VALUE) with
      | none => none
      | some fixed =>
        some (.code fixed (collect g2.constants) (collect g2.names)
          (collect g2.varnames))
termination_by (sizeOf body, 1)

/-- `CodeGen.compile_body`: on a fresh instance, pre-intern `None` as
constant 0 unless the body starts with a docstring, then compile the
body.  An empty body is fatal (`body[0]` raises). -/
def compile_body (body : List Stmt) : Option Const :=
  match body with
  | [] => none
  | t :: rest =>
    let g0 : Gen := ⟨[], [], []⟩
    let g1 := if isDocstring t then g0
      else { g0 with constants := (table_get g0.constants Const.cnone).1 }
    genCompile g1 (t :: rest)
termination_by (sizeOf body, 2)

end

/-- Top-level compilation: `CodeGen().compile(t)` on a `Module` node,
whose `visit_Module` handler emits the statement list. -/
def compileModule (body : List Stmt) : Option Const :=
  genCompile ⟨[], [], []⟩ body

/-! ### Instruction-level view of byte streams

A byte stream emitted by the generator is a concatenation of one-byte
(no-argument) and three-byte (has-argument) instructions.  The
resolution pass is specified on this view; `fix_jumps` is proved to
realize it. -/

inductive Instr where
  | simple : Nat → Instr
  | witharg : Nat → Nat → Instr
deriving DecidableEq

def Instr.opcode : Instr → Nat
  | .simple c => c
  | .witharg c _ => c

def Instr.bytes : Instr → List Nat
  | .simple c => [c]
  | .witharg c a => encode c a

def Instr.size : Instr → Nat
  | .simple _ => 1
  | .witharg _ _ => 3

def assemble : List Instr → List Nat
  | [] => []
  | ins :: rest => ins.bytes ++ assemble rest

/-- Well-formed instruction: the has-argument partition is respected,
opcode and argument encode as bytes (as `take_arg` guarantees for every
generator-emitted instruction). -/
def instrOK : Instr → Prop
  | .simple c => c < 90
  | .witharg c a => 90 ≤ c ∧ c < 256 ∧ a < 65536

instance : DecidablePred instrOK := fun i =>
  match i with
  | .simple c => inferInstanceAs (Decidable (c < 90))
  | .witharg c a => inferInstanceAs (Decidable (90 ≤ c ∧ c < 256 ∧ a < 65536))

/-- Modelled from the spec: the resolution rewrite at one instruction
sitting at byte position `p`.  A deferred-forward absolute jump with raw
argument `a` gets the absolute address `p + 3 + a`; the deferred-backward
placeholder (opcode 255) gets the true backward-jump opcode
(`JUMP_ABSOLUTE`, 113) and argument `p - a`; every other instruction is
untouched. -/
def resolveInstr (p : Nat) : Instr → Instr
  | .simple c => .simple c
  | .witharg c a =>
    if c ∈ hasjabs then .witharg c (p + 3 + a)
    else if c = 255 then .witharg 113 (p - a)
    else .witharg c a

/-- Modelled from the spec: the left-to-right resolution scan starting at
byte position `p`, advancing by each instruction's encoded size. -/
def resolveFrom (p : Nat) : List Instr → List Instr
  | [] => []
  | ins :: rest => resolveInstr p ins :: resolveFrom (p + ins.size) rest

/-- The rewritten argument of the instruction at position `p` still fits
in 16 bits (and a backward target is not negative); this is exactly the
condition under which the Python pass does not die in `bytes()`. -/
def canResolve (p : Nat) : Instr → Bool
  | .simple _ => true
  | .witharg c a =>
    if c ∈ hasjabs then p + 3 + a < 65536
    else if c = 255 then a ≤ p && p - a < 65536
    else true

def canResolveFrom (p : Nat) : List Instr → Bool
  | [] => true
  | ins :: rest => canResolve p ins && canResolveFrom (p + ins.size) rest

/-! ### List bookkeeping lemmas -/

theorem get?_append_add (pre rest : List Nat) (k : Nat) :
    (pre ++ rest).get? (pre.length + k) = rest.get? k := by
  induction pre with
  | nil => simp
  | cons a t ih => simpa [Nat.succ_add] using ih

theorem getD_append_len (pre : List Nat) (x : Nat) (rest : List Nat) (d : Nat) :
    (pre ++ x :: rest).getD pre.length d = x := by
  induction pre with
  | nil => rfl
  | cons a t ih => simpa using ih

theorem drop_append_add (pre rest : List Nat) (k : Nat) :
    (pre ++ rest).drop (pre.length + k) = rest.drop k := by
  induction pre with
  | nil => simp
  | cons a t ih => simpa [Nat.succ_add] using ih

theorem splice3_at (pre b rest v : List Nat) (hb : b.length = 3) :
    splice3 (pre ++ b ++ rest) pre.length v = pre ++ v ++ rest := by
  have h1 : (pre ++ b ++ rest).take pre.length = pre := by
    rw [List.append_assoc]
    exact List.take_left pre (b ++ rest)
  have h2 : (pre ++ b ++ rest).drop (pre.length + 3) = rest := by
    rw [List.append_assoc, drop_append_add, ← hb, List.drop_left]
  simp only [splice3, h1, h2]

theorem Instr.bytes_length (ins : Instr) : ins.bytes.length = ins.size := by
  cases ins <;> rfl

theorem assemble_append (a b : List Instr) :
    assemble (a ++ b) = assemble a ++ assemble b := by
  induction a with
  | nil => rfl
  | cons ins t ih => simp [assemble, ih]

theorem resolveInstr_size (p : Nat) (ins : Instr) :
    (resolveInstr p ins).size = ins.size := by
  cases ins with
  | simple c => rfl
  | witharg c a =>
    simp only [resolveInstr]
    split
    · rfl
    · split <;> rfl

theorem assemble_resolveFrom_length (p : Nat) (l : List Instr) :
    (assemble (resolveFrom p l)).length = (assemble l).length := by
  induction l generalizing p with
  | nil => rfl
  | cons ins t ih =>
    simp [assemble, resolveFrom, Instr.bytes_length, resolveInstr_size, ih]

theorem resolveFrom_append (p : Nat) (a b : List Instr) :
    resolveFrom p (a ++ b)
      = resolveFrom p a ++ resolveFrom (p + (assemble a).length) b := by
  induction a generalizing p with
  | nil => simp [resolveFrom, assemble]
  | cons ins t ih =>
    simp [resolveFrom, assemble, ih, Instr.bytes_length, Nat.add_assoc]

theorem decode_at (X : List Nat) (c t : Nat) (Y : List Nat) :
    decode (X ++ encode c t ++ Y) X.length = some t := by
  have h1 : (X ++ (encode c t ++ Y)).get? (X.length + 1) = some (t % 256) := by
    rw [get?_append_add]; rfl
  have h2 : (X ++ (encode c t ++ Y)).get? (X.length + 2) = some (t / 256) := by
    rw [get?_append_add]; rfl
  rw [List.append_assoc]
  simp only [decode, h1, h2]
  rw [Nat.mod_add_div]

theorem getD_encode_at (X : List Nat) (c t : Nat) (Y : List Nat) (d : Nat) :
    (X ++ encode c t ++ Y).getD X.length d = c := by
  rw [List.append_assoc]
  exact getD_append_len X c _ d

theorem splice3_eq (pre b rest v : List Nat) (i : Nat) (hi : i = pre.length)
    (hb : b.length = 3) :
    splice3 (pre ++ b ++ rest) i v = pre ++ v ++ rest := by
  subst hi; exact splice3_at pre b rest v hb

/-! ### `fix_jumps` realizes the instruction-level resolution scan -/

/-- The scan of `fix_jumps`, run from position `pre.length` over the
assembled suffix `l`, with an already-processed prefix `preR` in the
result; it rewrites exactly as `resolveFrom` describes, and succeeds
exactly when every rewritten argument stays in 16-bit range. -/
theorem fix_jumps_aux_assemble (l : List Instr) :
    ∀ pre preR : List Nat, (∀ ins ∈ l, instrOK ins) → preR.length = pre.length →
    fix_jumps_aux (pre ++ assemble l) pre.length (preR ++ assemble l)
      = if canResolveFrom pre.length l = true
        then some (preR ++ assemble (resolveFrom pre.length l))
        else none := by
  induction l with
  | nil =>
    intro pre preR _ _
    rw [fix_jumps_aux]
    simp [assemble, canResolveFrom, resolveFrom]
  | cons ins rest ih =>
    intro pre preR hok hlen
    have hoki : instrOK ins := hok ins (List.mem_cons_self _ _)
    have hokr : ∀ i ∈ rest, instrOK i := fun i hi => hok i (List.mem_cons_of_mem _ hi)
    cases ins with
    | simple c =>
      have hc : c < 90 := hoki
      have hb : pre ++ assemble (Instr.simple c :: rest) = pre ++ c :: assemble rest := by
        simp [assemble, Instr.bytes]
      have hbR : preR ++ assemble (Instr.simple c :: rest) = preR ++ c :: assemble rest := by
        simp [assemble, Instr.bytes]
      rw [hb, hbR, fix_jumps_aux]
      have hlt : pre.length < (pre ++ c :: assemble rest).length := by simp
      rw [dif_pos hlt]
      have hgd : (pre ++ c :: assemble rest).getD pre.length 0 = c :=
        getD_append_len pre c _ 0
      have hnj : c ∉ hasjabs := by
        simp only [hasjabs, List.mem_cons, List.not_mem_nil, or_false]
        omega
      have hn255 : c ≠ 255 := by omega
      simp only [hgd, HAVE_ARGUMENT]
      rw [if_neg hnj, if_neg hn255, if_pos hc]
      have e1 : pre ++ c :: assemble rest = (pre ++ [c]) ++ assemble rest := by simp
      have e2 : preR ++ c :: assemble rest = (preR ++ [c]) ++ assemble rest := by simp
      have e3 : pre.length + 1 = (pre ++ [c]).length := by simp
      rw [e1, e2, e3, ih (pre ++ [c]) (preR ++ [c]) hokr (by simp [hlen])]
      simp [canResolveFrom, canResolve, resolveFrom, resolveInstr, Instr.size,
        assemble, Instr.bytes]
    | witharg c a =>
      obtain ⟨hc90, hc256, ha⟩ := hoki
      have hb : pre ++ assemble (Instr.witharg c a :: rest)
          = pre ++ encode c a ++ assemble rest := by
        simp [assemble, Instr.bytes, List.append_assoc]
      have hbR : preR ++ assemble (Instr.witharg c a :: rest)
          = preR ++ encode c a ++ assemble rest := by
        simp [assemble, Instr.bytes, List.append_assoc]
      rw [hb, hbR, fix_jumps_aux]
      have hlt : pre.length < (pre ++ encode c a ++ assemble rest).length := by
        simp [encode]
      rw [dif_pos hlt]
      have hgd : (pre ++ encode c a ++ assemble rest).getD pre.length 0 = c :=
        getD_encode_at pre c a _ 0
      have hdec : decode (pre ++ encode c a ++ assemble rest) pre.length = some a :=
        decode_at pre c a _
      have hstep : ¬ c < 90 := by omega
      have henc : (encode c a).length = 3 := rfl
      have e3 : pre.length + 3 = (pre ++ encode c a).length := by simp [encode]
      simp only [hgd, HAVE_ARGUMENT]
      rw [if_neg hstep]
      by_cases hjab : c ∈ hasjabs
      · rw [if_pos hjab, hdec]
        simp only []
        by_cases ht : pre.length + 3 + a < 65536
        · rw [if_pos ht,
            splice3_eq preR (encode c a) (assemble rest) _ pre.length hlen.symm henc]
          have IH1 := ih (pre ++ encode c a) (preR ++ encode c (pre.length + 3 + a))
            hokr (by simp [hlen, encode])
          rw [← e3] at IH1
          rw [IH1]
          simp only [canResolveFrom, canResolve, resolveFrom, resolveInstr,
            Instr.size, assemble, Instr.bytes, if_pos hjab]
          simp [ht, List.append_assoc]
        · rw [if_neg ht]
          simp only [canResolveFrom, canResolve, if_pos hjab]
          simp [ht]
      · rw [if_neg hjab]
        by_cases h255 : c = 255
        · rw [if_pos h255, hdec]
          simp only []
          by_cases hcond : a ≤ pre.length ∧ pre.length - a < 65536
          · rw [if_pos hcond,
              splice3_eq preR (encode c a) (assemble rest) _ pre.length hlen.symm henc]
            have IH1 := ih (pre ++ encode c a) (preR ++ encode 113 (pre.length - a))
              hokr (by simp [hlen, encode])
            rw [← e3] at IH1
            rw [IH1]
            simp only [canResolveFrom, canResolve, resolveFrom, resolveInstr,
              Instr.size, assemble, Instr.bytes, if_neg hjab, if_pos h255]
            simp [hcond.1, hcond.2, List.append_assoc]
          · rw [if_neg hcond]
            simp only [canResolveFrom, canResolve, if_neg hjab, if_pos h255]
            rw [Decidable.not_and_iff_or_not] at hcond
            rcases hcond with hcond | hcond <;> simp [hcond]
        · rw [if_neg h255]
          have IH1 := ih (pre ++ encode c a) (preR ++ encode c a) hokr
            (by simp [hlen, encode])
          rw [← e3] at IH1
          rw [IH1]
          simp only [canResolveFrom, canResolve, resolveFrom, resolveInstr,
            Instr.size, assemble, Instr.bytes, if_neg hjab, if_neg h255]
          simp [List.append_assoc]

/-- `fix_jumps` on a well-formed assembled stream: it succeeds exactly
when all rewritten targets stay in range, and then computes exactly the
resolution scan `resolveFrom 0`. -/
theorem fix_jumps_assemble (l : List Instr) (hok : ∀ ins ∈ l, instrOK ins) :
    fix_jumps (assemble l)
      = if canResolveFrom 0 l = true
        then some (assemble (resolveFrom 0 l))
        else none := by
  have h := fix_jumps_aux_assemble l [] [] hok rfl
  simpa [fix_jumps] using h

/-! ### Structure of generator output

Two facts proved together by induction over the AST: the tables of a
`CodeGen` instance only ever grow (interning never moves an index), and
every emitted byte string is a concatenation of well-formed 1- or 3-byte
instructions. -/

/-- The second table extends the first: entries are only appended. -/
def GenExt (g g2 : Gen) : Prop :=
  (∃ t, g2.constants = g.constants ++ t) ∧ (∃ t, g2.names = g.names ++ t) ∧
    (∃ t, g2.varnames = g.varnames ++ t)

theorem GenExt.rfl (g : Gen) : GenExt g g :=
  ⟨⟨[], by simp⟩, ⟨[], by simp⟩, ⟨[], by simp⟩⟩

theorem GenExt.trans {g1 g2 g3 : Gen} (h : GenExt g1 g2) (h' : GenExt g2 g3) :
    GenExt g1 g3 := by
  obtain ⟨⟨a1, e1⟩, ⟨b1, f1⟩, ⟨c1, k1⟩⟩ := h
  obtain ⟨⟨a2, e2⟩, ⟨b2, f2⟩, ⟨c2, k2⟩⟩ := h'
  exact ⟨⟨a1 ++ a2, by simp [e2, e1]⟩, ⟨b1 ++ b2, by simp [f2, f1]⟩,
    ⟨c1 ++ c2, by simp [k2, k1]⟩⟩

/-- A byte string that parses as a sequence of well-formed
instructions. -/
def ByteCodeWF (bs : List Nat) : Prop :=
  ∃ l, (∀ ins ∈ l, instrOK ins) ∧ bs = assemble l

theorem ByteCodeWF.empty : ByteCodeWF [] :=
  ⟨[], by simp, by simp [assemble]⟩

theorem ByteCodeWF.append {a b : List Nat} (ha : ByteCodeWF a)
    (hb : ByteCodeWF b) : ByteCodeWF (a ++ b) := by
  obtain ⟨la, hla, ea⟩ := ha
  obtain ⟨lb, hlb, eb⟩ := hb
  refine ⟨la ++ lb, ?_, by simp [assemble_append, ea, eb]⟩
  intro ins hins
  rcases List.mem_append.1 hins with h | h
  · exact hla ins h
  · exact hlb ins h

theorem ByteCodeWF.simple (c : Nat) (hc : c < 90) : ByteCodeWF [c] :=
  ⟨[.simple c], by simpa [instrOK], by simp [assemble, Instr.bytes]⟩

theorem ByteCodeWF.witharg (c a : Nat) (h90 : 90 ≤ c) (hc : c < 256)
    (ha : a < 65536) : ByteCodeWF (encode c a) :=
  ⟨[.witharg c a], by simp [instrOK]; omega, by simp [assemble, Instr.bytes]⟩

theorem take_arg_eq_some {c a : Nat} {bs : List Nat}
    (h : take_arg c a = some bs) : c < 256 ∧ a < 65536 ∧ bs = encode c a := by
  unfold take_arg at h
  split at h
  · cases h
    next h' => exact ⟨h'.1, h'.2, rfl⟩
  · cases h

theorem take_arg_wf {c a : Nat} {bs : List Nat} (h90 : 90 ≤ c)
    (h : take_arg c a = some bs) : ByteCodeWF bs := by
  obtain ⟨hc, ha, hbs⟩ := take_arg_eq_some h
  exact hbs ▸ ByteCodeWF.witharg c a h90 hc ha

theorem table_get_ext {α : Type} [DecidableEq α] (t : List α) (v : α) :
    ∃ u, (table_get t v).1 = t ++ u := by
  unfold table_get
  cases h : tblIdx v t with
  | none => exact ⟨[v], by simp⟩
  | some i => exact ⟨[], by simp⟩

theorem load_const_spec {g : Gen} {c : Const} {bs : List Nat} {g2 : Gen}
    (h : CodeGen.load_const g c = some (bs, g2)) : GenExt g g2 ∧ ByteCodeWF bs := by
  unfold CodeGen.load_const at h
  simp only [] at h
  cases hta : op.LOAD_CONST (table_get g.constants c).2 with
  | none => rw [hta] at h; cases h
  | some bs' =>
    rw [hta] at h
    cases h
    obtain ⟨u, hu⟩ := table_get_ext g.constants c
    exact ⟨⟨⟨u, hu⟩, ⟨[], by simp⟩, ⟨[], by simp⟩⟩,
      take_arg_wf (by norm_num) hta⟩

theorem store_spec {g : Gen} {nm : String} {bs : List Nat} {g2 : Gen}
    (h : CodeGen.store g nm = some (bs, g2)) : GenExt g g2 ∧ ByteCodeWF bs := by
  unfold CodeGen.store at h
  simp only [] at h
  cases hta : op.STORE_NAME (table_get g.names nm).2 with
  | none => rw [hta] at h; cases h
  | some bs' =>
    rw [hta] at h
    cases h
    obtain ⟨u, hu⟩ := table_get_ext g.names nm
    exact ⟨⟨⟨[], by simp⟩, ⟨u, hu⟩, ⟨[], by simp⟩⟩,
      take_arg_wf (by norm_num) hta⟩

mutual

theorem ofExpr_spec (e : Expr) (g : Gen) (bs : List Nat) (g2 : Gen)
    (h : ofExpr e g = some (bs, g2)) : GenExt g g2 ∧ ByteCodeWF bs := by
  cases e with
  | num n =>
    simp only [ofExpr] at h
    exact load_const_spec h
  | str s =>
    simp only [ofExpr] at h
    exact load_const_spec h
  | name id =>
    simp only [ofExpr] at h
    split at h
    · exact Option.noConfusion h
    next bs' hta =>
      cases h
      obtain ⟨u, hu⟩ := table_get_ext g.names id
      exact ⟨⟨⟨[], by simp⟩, ⟨u, hu⟩, ⟨[], by simp⟩⟩,
        take_arg_wf (by norm_num) hta⟩
  | binop l bop r =>
    simp only [ofExpr] at h
    split at h
    · exact Option.noConfusion h
    next lb g1 hl =>
      split at h
      · exact Option.noConfusion h
      next rb gx hr =>
        have h1 := ofExpr_spec l g lb g1 hl
        have h2 := ofExpr_spec r g1 rb gx hr
        cases h
        refine ⟨h1.1.trans h2.1, (h1.2.append h2.2).append ?_⟩
        exact ByteCodeWF.simple bop.byte (by cases bop <;> norm_num [BinOp.byte])
  | call f args =>
    simp only [ofExpr] at h
    split at h
    · exact Option.noConfusion h
    next fb g1 hf =>
      split at h
      · exact Option.noConfusion h
      next ab gx hargs =>
        split at h
        · exact Option.noConfusion h
        next cb hcf =>
          have h1 := ofExpr_spec f g fb g1 hf
          have h2 := ofExprList_spec args g1 ab gx hargs
          cases h
          exact ⟨h1.1.trans h2.1,
            (h1.2.append h2.2).append (take_arg_wf (by norm_num) hcf)⟩
termination_by (sizeOf e, 0)

theorem ofExprList_spec (l : List Expr) (g : Gen) (bs : List Nat) (g2 : Gen)
    (h : ofExprList l g = some (bs, g2)) : GenExt g g2 ∧ ByteCodeWF bs := by
  cases l with
  | nil =>
    simp only [ofExprList] at h
    cases h
    exact ⟨GenExt.rfl g, ByteCodeWF.empty⟩
  | cons e rest =>
    simp only [ofExprList] at h
    split at h
    · exact Option.noConfusion h
    next eb g1 he =>
      split at h
      · exact Option.noConfusion h
      next rb gx hrest =>
        have h1 := ofExpr_spec e g eb g1 he
        have h2 := ofExprList_spec rest g1 rb gx hrest
        cases h
        exact ⟨h1.1.trans h2.1, h1.2.append h2.2⟩
termination_by (sizeOf l, 0)

theorem ofStmt_spec (s : Stmt) (g : Gen) (bs : List Nat) (g2 : Gen)
    (h : ofStmt s g = some (bs, g2)) : GenExt g g2 ∧ ByteCodeWF bs := by
  cases s with
  | functionDef nm args decorators body =>
    simp only [ofStmt] at h
    split at h
    case isFalse => exact Option.noConfusion h
    case isTrue =>
      split at h
      · exact Option.noConfusion h
      next c hcb =>
        split at h
        · exact Option.noConfusion h
        next lc g1 hlc =>
          split at h
          · exact Option.noConfusion h
          next mk hmk =>
            split at h
            · exact Option.noConfusion h
            next st gx hst =>
              have h1 := load_const_spec hlc
              have h2 := store_spec hst
              cases h
              exact ⟨h1.1.trans h2.1,
                (h1.2.append (take_arg_wf (by norm_num) hmk)).append h2.2⟩
  | ifStmt test body orelse =>
    simp only [ofStmt] at h
    split at h
    · exact Option.noConfusion h
    next orelseB g1 ho =>
      split at h
      · exact Option.noConfusion h
      next bodyB0 gx hb =>
        split at h
        · exact Option.noConfusion h
        next jf hjf =>
          split at h
          · exact Option.noConfusion h
          next testB gy ht =>
            split at h
            · exact Option.noConfusion h
            next jc hjc =>
              have h1 := ofStmtList_spec orelse g orelseB g1 ho
              have h2 := ofStmtList_spec body g1 bodyB0 gx hb
              have h3 := ofExpr_spec test gx testB gy ht
              cases h
              refine ⟨(h1.1.trans h2.1).trans h3.1, ?_⟩
              have hw := (h3.2.append (take_arg_wf (by norm_num) hjc)).append
                ((h2.2.append (take_arg_wf (by norm_num) hjf)).append h1.2)
              simpa [List.append_assoc] using hw
  | whileStmt test body =>
    simp only [ofStmt] at h
    split at h
    · exact Option.noConfusion h
    next testB g1 ht =>
      split at h
      · exact Option.noConfusion h
      next bodyB gx hb =>
        split at h
        · exact Option.noConfusion h
        next branch hbr =>
          split at h
          · exact Option.noConfusion h
          next jb hjb =>
            split at h
            · exact Option.noConfusion h
            next su hsu =>
              have h1 := ofExpr_spec test g testB g1 ht
              have h2 := ofStmtList_spec body g1 bodyB gx hb
              cases h
              refine ⟨h1.1.trans h2.1, ?_⟩
              refine ((take_arg_wf (by norm_num) hsu).append
                (((h1.2.append (take_arg_wf (by norm_num) hbr)).append h2.2).append
                  (take_arg_wf (by norm_num) hjb))).append ?_
              exact ByteCodeWF.simple 87 (by norm_num)
  | exprStmt e =>
    simp only [ofStmt] at h
    split at h
    · exact Option.noConfusion h
    next eb g1 he =>
      have h1 := ofExpr_spec e g eb g1 he
      cases h
      exact ⟨h1.1, h1.2.append (ByteCodeWF.simple 1 (by norm_num))⟩
  | assign targets v =>
    cases targets with
    | nil =>
      simp only [ofStmt] at h
      exact Option.noConfusion h
    | cons t1 rest =>
      cases t1 with
      | other =>
        simp only [ofStmt] at h
        exact Option.noConfusion h
      | name id =>
        cases rest with
        | cons t2 rest2 =>
          simp only [ofStmt] at h
          exact Option.noConfusion h
        | nil =>
          simp only [ofStmt] at h
          split at h
          · exact Option.noConfusion h
          next vb g1 hv =>
            split at h
            · exact Option.noConfusion h
            next st gx hst =>
              have h1 := ofExpr_spec v g vb g1 hv
              have h2 := store_spec hst
              cases h
              exact ⟨h1.1.trans h2.1,
                (h1.2.append (ByteCodeWF.simple 4 (by norm_num))).append h2.2⟩
termination_by (sizeOf s, 0)

theorem ofStmtList_spec (l : List Stmt) (g : Gen) (bs : List Nat) (g2 : Gen)
    (h : ofStmtList l g = some (bs, g2)) : GenExt g g2 ∧ ByteCodeWF bs := by
  cases l with
  | nil =>
    simp only [ofStmtList] at h
    cases h
    exact ⟨GenExt.rfl g, ByteCodeWF.empty⟩
  | cons s rest =>
    simp only [ofStmtList] at h
    split at h
    · exact Option.noConfusion h
    next sb g1 hs =>
      split at h
      · exact Option.noConfusion h
      next rb gx hrest =>
        have h1 := ofStmt_spec s g sb g1 hs
        have h2 := ofStmtList_spec rest g1 rb gx hrest
        cases h
        exact ⟨h1.1.trans h2.1, h1.2.append h2.2⟩
termination_by (sizeOf l, 0)

end

/-! ### Interning properties (C4) -/

theorem tblIdx_eq_none {α : Type} [DecidableEq α] (v : α) (t : List α)
    (h : v ∉ t) : tblIdx v t = none := by
  induction t with
  | nil => rfl
  | cons a u ih =>
    simp only [List.mem_cons, not_or] at h
    rw [tblIdx, if_neg (fun hav => h.1 hav.symm), ih h.2]
    rfl

theorem tblIdx_append_self {α : Type} [DecidableEq α] (v : α) (t : List α)
    (h : tblIdx v t = none) : tblIdx v (t ++ [v]) = some t.length := by
  induction t with
  | nil => simp [tblIdx]
  | cons a u ih =>
    rw [tblIdx] at h
    by_cases hav : a = v
    · rw [if_pos hav] at h; cases h
    · rw [if_neg hav] at h
      have h' : tblIdx v u = none := by
        cases htb : tblIdx v u with
        | none => rfl
        | some k => rw [htb] at h; cases h
      rw [List.cons_append, tblIdx, if_neg hav, ih h']
      simp

theorem table_get_idem {α : Type} [DecidableEq α] (t : List α) (v : α) :
    table_get (table_get t v).1 v = table_get t v := by
  cases h : tblIdx v t with
  | some i =>
    have e : table_get t v = (t, i) := by simp [table_get, h]
    rw [e]
    simp [table_get, h]
  | none =>
    have e : table_get t v = (t ++ [v], t.length) := by simp [table_get, h]
    rw [e]
    simp [table_get, tblIdx_append_self v t h]

theorem internAll_fresh {α : Type} [DecidableEq α] :
    ∀ (vs t : List α), vs.Nodup → (∀ v ∈ vs, v ∉ t) →
      internAll t vs = (t ++ vs, List.range' t.length vs.length) := by
  intro vs
  induction vs with
  | nil => intro t _ _; simp [internAll, List.range']
  | cons v rest ih =>
    intro t hnd hfresh
    have hvt : v ∉ t := hfresh v (by simp)
    have hidx : tblIdx v t = none := tblIdx_eq_none v t hvt
    have e : table_get t v = (t ++ [v], t.length) := by simp [table_get, hidx]
    have hnd' : rest.Nodup := (List.nodup_cons.1 hnd).2
    have hvrest : v ∉ rest := (List.nodup_cons.1 hnd).1
    have hfresh' : ∀ w ∈ rest, w ∉ t ++ [v] := by
      intro w hw
      simp only [List.mem_append, List.mem_singleton, not_or]
      exact ⟨hfresh w (by simp [hw]), fun he => hvrest (he ▸ hw)⟩
    simp only [internAll, e]
    rw [ih (t ++ [v]) hnd' hfresh']
    simp [List.range'_succ]

/-- C4: interning is idempotent and order-preserving.  Looking a value up
twice in a table returns the identical table and index; interning N
pairwise-distinct values into a fresh table assigns them the contiguous
indices 0..N-1 in first-use order, and materializing the table returns
exactly those values in that order. -/
theorem interning_props {α : Type} [DecidableEq α] (t : List α) (v : α)
    (vs : List α) (hnd : vs.Nodup) :
    table_get (table_get t v).1 v = table_get t v ∧
    internAll [] vs = (vs, List.range vs.length) ∧
    collect (internAll [] vs).1 = vs := by
  have h2 := internAll_fresh vs [] hnd (by simp)
  refine ⟨table_get_idem t v, ?_, ?_⟩
  · rw [h2]
    simp [List.range_eq_range']
  · rw [h2]
    simp [collect]

theorem interning_props_witness :
    table_get (table_get ([5] : List Nat) 5).1 5 = table_get [5] 5 ∧
    internAll ([] : List Nat) [3, 1, 2] = ([3, 1, 2], List.range 3) ∧
    collect (internAll ([] : List Nat) [3, 1, 2]).1 = [3, 1, 2] := by
  have h := interning_props ([5] : List Nat) 5 [3, 1, 2] (by decide)
  exact ⟨h.1, h.2.1, h.2.2⟩

/-! ### Encoder properties (C5) -/

/-- C5: for every has-argument opcode, the encoder produces the 3-byte
little-endian encoding (opcode, low byte, high byte) of any argument up
to 65535, and fails fatally on any argument of 65536 or more; in
particular 65535 succeeds and 65536 is a fatal error. -/
theorem encoder_props (opcode : Nat) (h90 : 90 ≤ opcode) (h256 : opcode < 256) :
    (∀ arg, arg ≤ 65535 →
        take_arg opcode arg = some [opcode, arg % 256, arg / 256]) ∧
    (∀ arg, 65536 ≤ arg → take_arg opcode arg = none) ∧
    take_arg opcode 65535 = some [opcode, 255, 255] ∧
    take_arg opcode 65536 = none := by
  refine ⟨fun arg ha => ?_, fun arg ha => ?_, ?_, ?_⟩
  · rw [take_arg, if_pos ⟨h256, by omega⟩]
    rfl
  · rw [take_arg, if_neg]
    rintro ⟨_, hlt⟩
    omega
  · rw [take_arg, if_pos ⟨h256, by norm_num⟩]
    norm_num [encode]
  · rw [take_arg, if_neg]
    rintro ⟨_, hlt⟩
    omega

theorem encoder_props_witness :
    take_arg 100 65535 = some [100, 255, 255] ∧ take_arg 100 65536 = none := by
  have h := encoder_props 100 (by norm_num) (by norm_num)
  exact ⟨h.2.2.1, h.2.2.2⟩

/-! ### C1: `fix_jumps` computes the resolution scan -/

/-- C1: the resolution pass scans the stream left to right, advancing one
byte past no-argument opcodes and three past has-argument ones; each
deferred-forward absolute-jump instruction found at byte position `i`
with raw argument `L` has its argument rewritten to `i + 3 + L`, and
each deferred-backward placeholder instruction at position `i` with raw
argument `L` is rewritten to the true backward-jump opcode with argument
`i - L`: on any well-formed instruction stream whose rewritten arguments
stay in 16-bit range (every stream the generator emits successfully is of
this shape), `fix_jumps` computes exactly the spec-side scan
`resolveFrom 0`. -/
theorem fix_jumps_is_resolution (l : List Instr)
    (hok : ∀ ins ∈ l, instrOK ins) (hres : canResolveFrom 0 l = true) :
    fix_jumps (assemble l) = some (assemble (resolveFrom 0 l)) := by
  rw [fix_jumps_assemble l hok, if_pos hres]

theorem fix_jumps_is_resolution_witness :
    fix_jumps (assemble [.witharg 114 2, .simple 1, .simple 1, .witharg 255 5])
      = some (assemble (resolveFrom 0
          [.witharg 114 2, .simple 1, .simple 1, .witharg 255 5])) :=
  fix_jumps_is_resolution _ (by decide) (by decide)

/-! ### Instruction-boundary scans of a finished stream (C6, C10) -/

/-- The opcode at each instruction boundary, scanning exactly as
`fix_jumps` does (1 byte past no-argument opcodes, 3 otherwise). -/
def opcodesFrom (b : List Nat) (i : Nat) : List Nat :=
  if h : i < b.length then
    b.getD i 0 :: opcodesFrom b (i + if b.getD i 0 < HAVE_ARGUMENT then 1 else 3)
  else []
termination_by b.length - i
decreasing_by
  simp_wf
  split <;> omega

/-- The byte positions of the deferred-jump instructions (absolute-jump
opcodes and the backward placeholder) that the resolution scan
rewrites. -/
def jumpPositions (b : List Nat) (i : Nat) : List Nat :=
  if h : i < b.length then
    if b.getD i 0 ∈ hasjabs ∨ b.getD i 0 = 255 then
      i :: jumpPositions b (i + if b.getD i 0 < HAVE_ARGUMENT then 1 else 3)
    else jumpPositions b (i + if b.getD i 0 < HAVE_ARGUMENT then 1 else 3)
  else []
termination_by b.length - i
decreasing_by
  all_goals simp_wf
  all_goals split <;> omega

/-- Enough well-formedness for the boundary scan: the has-argument
partition is respected. -/
def sizedOK : Instr → Prop
  | .simple c => c < 90
  | .witharg c _ => 90 ≤ c

theorem instrOK_sized {ins : Instr} (h : instrOK ins) : sizedOK ins := by
  cases ins with
  | simple c => exact h
  | witharg c a => exact h.1

theorem opcodesFrom_assemble (l : List Instr) :
    ∀ pre : List Nat, (∀ ins ∈ l, sizedOK ins) →
      opcodesFrom (pre ++ assemble l) pre.length = l.map Instr.opcode := by
  induction l with
  | nil =>
    intro pre _
    rw [opcodesFrom]
    simp [assemble]
  | cons ins rest ih =>
    intro pre hok
    have hoki : sizedOK ins := hok ins (List.mem_cons_self _ _)
    have hokr : ∀ i ∈ rest, sizedOK i := fun i hi => hok i (List.mem_cons_of_mem _ hi)
    cases ins with
    | simple c =>
      have hc : c < 90 := hoki
      have hb : pre ++ assemble (Instr.simple c :: rest) = pre ++ c :: assemble rest := by
        simp [assemble, Instr.bytes]
      rw [hb, opcodesFrom]
      have hlt : pre.length < (pre ++ c :: assemble rest).length := by simp
      rw [dif_pos hlt]
      have hgd : (pre ++ c :: assemble rest).getD pre.length 0 = c :=
        getD_append_len pre c _ 0
      simp only [hgd, HAVE_ARGUMENT]
      rw [if_pos hc]
      have e1 : pre ++ c :: assemble rest = (pre ++ [c]) ++ assemble rest := by simp
      have e3 : pre.length + 1 = (pre ++ [c]).length := by simp
      rw [e1, e3, ih (pre ++ [c]) hokr]
      simp [Instr.opcode]
    | witharg c a =>
      have hc : 90 ≤ c := hoki
      have hb : pre ++ assemble (Instr.witharg c a :: rest)
          = pre ++ encode c a ++ assemble rest := by
        simp [assemble, Instr.bytes, List.append_assoc]
      rw [hb, opcodesFrom]
      have hlt : pre.length < (pre ++ encode c a ++ assemble rest).length := by
        simp [encode]
      rw [dif_pos hlt]
      have hgd : (pre ++ encode c a ++ assemble rest).getD pre.length 0 = c :=
        getD_encode_at pre c a _ 0
      simp only [hgd, HAVE_ARGUMENT]
      rw [if_neg (by omega)]
      have e1 : pre ++ encode c a ++ assemble rest
          = (pre ++ encode c a) ++ assemble rest := by rw [List.append_assoc]
      have e3 : pre.length + 3 = (pre ++ encode c a).length := by simp [encode]
      rw [e1, e3, ih (pre ++ encode c a) hokr]
      simp [Instr.opcode]

theorem resolveFrom_opcode_props (l : List Instr) :
    ∀ p, (∀ ins ∈ l, instrOK ins) →
      ∀ ins2 ∈ resolveFrom p l, sizedOK ins2 ∧ ins2.opcode ≠ 255 := by
  induction l with
  | nil =>
    intro p _ ins2 h2
    simp [resolveFrom] at h2
  | cons ins rest ih =>
    intro p hok ins2 h2
    have hoki : instrOK ins := hok ins (List.mem_cons_self _ _)
    have hokr : ∀ i ∈ rest, instrOK i := fun i hi => hok i (List.mem_cons_of_mem _ hi)
    simp only [resolveFrom, List.mem_cons] at h2
    rcases h2 with h2 | h2
    · subst h2
      cases ins with
      | simple c =>
        have hc : c < 90 := hoki
        exact ⟨hc, by simp [resolveInstr, Instr.opcode]; omega⟩
      | witharg c a =>
        obtain ⟨hc90, hc256, ha⟩ := hoki
        by_cases hjab : c ∈ hasjabs
        · have hcr : c ≠ 255 := by
            simp only [hasjabs, List.mem_cons, List.not_mem_nil, or_false] at hjab
            omega
          simp [resolveInstr, if_pos hjab, sizedOK, Instr.opcode, hc90, hcr]
        · by_cases h255 : c = 255
          · simp [resolveInstr, if_neg hjab, if_pos h255, sizedOK, Instr.opcode]
          · simp [resolveInstr, if_neg hjab, if_neg h255, sizedOK, Instr.opcode,
              hc90, h255]
    · exact ih (p + ins.size) hokr ins2 h2

/-- C6: a successfully compiled unit's final byte stream contains no
instruction whose opcode is the synthetic backward-jump placeholder
(255): the resolution pass has rewritten every one. -/
theorem no_placeholder_left (m : List Stmt) (bc : List Nat)
    (cs : List Const) (ns vs : List String)
    (h : compileModule m = some (.code bc cs ns vs)) :
    255 ∉ opcodesFrom bc 0 := by
  simp only [compileModule, genCompile] at h
  split at h
  · exact Option.noConfusion h
  next bs g1 heq1 =>
    split at h
    · exact Option.noConfusion h
    next lc g2 heq2 =>
      split at h
      · exact Option.noConfusion h
      next fixed heq3 =>
        obtain ⟨l0, hok0, rfl⟩ := (ofStmtList_spec m _ bs g1 heq1).2
        obtain ⟨l1, hok1, rfl⟩ := (load_const_spec heq2).2
        have hshape : assemble l0 ++ assemble l1 ++ op.RETURN_VALUE
            = assemble (l0 ++ (l1 ++ [.simple 83])) := by
          simp [assemble_append, assemble, Instr.bytes, op.RETURN_VALUE,
            List.append_assoc]
        rw [hshape] at heq3
        have hokL : ∀ ins ∈ l0 ++ (l1 ++ [Instr.simple 83]), instrOK ins := by
          intro ins hins
          rcases List.mem_append.1 hins with hi | hi
          · exact hok0 ins hi
          rcases List.mem_append.1 hi with hi | hi
          · exact hok1 ins hi
          · simp at hi
            subst hi
            exact (by norm_num : (83 : Nat) < 90)
        rw [fix_jumps_assemble _ hokL] at heq3
        split at heq3
        · cases heq3
          cases h
          have hsc := opcodesFrom_assemble
            (resolveFrom 0 (l0 ++ (l1 ++ [Instr.simple 83]))) []
            (fun ins2 hin2 =>
              (resolveFrom_opcode_props _ 0 hokL ins2 hin2).1)
          simp only [List.nil_append, List.length_nil] at hsc
          rw [hsc]
          intro hmem
          obtain ⟨ins2, hin2, hop⟩ := List.mem_map.1 hmem
          exact (resolveFrom_opcode_props _ 0 hokL ins2 hin2).2 hop
        · exact Option.noConfusion heq3

/-! ### C10: resolution is length-preserving and frame-respecting -/

theorem get?_some_lt {l : List Nat} {n x : Nat} (h : l.get? n = some x) :
    n < l.length := by
  by_contra hc
  push_neg at hc
  rw [List.get?_eq_none.2 hc] at h
  cases h

theorem decode_some_bound {b : List Nat} {i L : Nat} (h : decode b i = some L) :
    i + 3 ≤ b.length := by
  unfold decode at h
  cases h1 : b.get? (i + 1) with
  | none => rw [h1] at h; cases h
  | some lo =>
    rw [h1] at h
    cases h2 : b.get? (i + 2) with
    | none => rw [h2] at h; cases h
    | some hi =>
      have := get?_some_lt h2
      omega

theorem take_get? (l : List Nat) : ∀ i k, k < i → (l.take i).get? k = l.get? k := by
  induction l with
  | nil => intro i k _; simp
  | cons a t ih =>
    intro i k hk
    cases i with
    | zero => omega
    | succ i2 =>
      cases k with
      | zero => simp
      | succ k2 =>
        simp only [List.take_succ_cons, List.get?]
        exact ih i2 k2 (by omega)

theorem drop_get? (l : List Nat) : ∀ n k, (l.drop n).get? k = l.get? (n + k) := by
  induction l with
  | nil => intro n k; simp
  | cons a t ih =>
    intro n k
    cases n with
    | zero => simp
    | succ n2 =>
      simp only [List.drop_succ_cons, List.get?, Nat.succ_add]
      exact ih n2 k

theorem splice3_length (res v : List Nat) (i : Nat) (hv : v.length = 3)
    (hle : i + 3 ≤ res.length) : (splice3 res i v).length = res.length := by
  simp [splice3, hv]
  omega

theorem splice3_get? (res v : List Nat) (i k : Nat) (hv : v.length = 3)
    (hle : i + 3 ≤ res.length) (hk : k < i ∨ i + 3 ≤ k) :
    (splice3 res i v).get? k = res.get? k := by
  have htl : (res.take i).length = i := by simp; omega
  have hlen2 : (res.take i ++ v).length = i + 3 := by simp [htl, hv]
  rcases hk with hk | hk
  · unfold splice3
    rw [List.get?_append (by rw [hlen2]; omega),
      List.get?_append (by rw [htl]; omega), take_get? res i k hk]
  · obtain ⟨m, rfl⟩ : ∃ m, k = i + 3 + m := ⟨k - (i + 3), by omega⟩
    unfold splice3
    have e2 := get?_append_add (res.take i ++ v) (res.drop (i + 3)) m
    rw [hlen2] at e2
    rw [e2, drop_get?]

/-- One step of the frame argument, by recursion along the scan. -/
theorem fix_jumps_aux_frame (b : List Nat) (i : Nat) (res r : List Nat)
    (hlen : res.length = b.length) (h : fix_jumps_aux b i res = some r) :
    r.length = res.length ∧
    ∀ k, (∀ j ∈ jumpPositions b i, k < j ∨ j + 3 ≤ k) →
      r.get? k = res.get? k := by
  rw [fix_jumps_aux] at h
  rw [jumpPositions]
  simp only [HAVE_ARGUMENT] at h ⊢
  by_cases hlt : i < b.length
  case neg =>
    rw [dif_neg hlt] at h
    rw [dif_neg hlt]
    cases h
    exact ⟨rfl, fun k _ => rfl⟩
  case pos =>
    rw [dif_pos hlt] at h
    rw [dif_pos hlt]
    by_cases hjab : b.getD i 0 ∈ hasjabs
    · rw [if_pos hjab] at h
      have hstep : (if b.getD i 0 < 90 then 1 else 3) = 3 := by
        apply if_neg
        simp only [hasjabs, List.mem_cons, List.not_mem_nil, or_false] at hjab
        omega
      rw [hstep] at h
      split at h
      · exact Option.noConfusion h
      next L heqdec =>
        split at h
        case isFalse => exact Option.noConfusion h
        case isTrue htgt =>
          have hle3 : i + 3 ≤ b.length := decode_some_bound heqdec
          have hlen2 : (splice3 res i (encode (b.getD i 0) (i + 3 + L))).length
              = res.length := splice3_length _ _ _ rfl (by omega)
          have hrec := fix_jumps_aux_frame b (i + 3) _ r (hlen2.trans hlen) h
          rw [if_pos (Or.inl hjab), hstep]
          refine ⟨hrec.1.trans hlen2, fun k hk => ?_⟩
          have hk_i := hk i (List.mem_cons_self _ _)
          have hrest : ∀ j ∈ jumpPositions b (i + 3), k < j ∨ j + 3 ≤ k :=
            fun j hj => hk j (List.mem_cons_of_mem _ hj)
          rw [hrec.2 k hrest,
            splice3_get? res (encode (b.getD i 0) (i + 3 + L)) i k rfl
              (by omega) hk_i]
    · rw [if_neg hjab] at h
      by_cases h255 : b.getD i 0 = 255
      · rw [if_pos h255] at h
        have hstep : (if b.getD i 0 < 90 then 1 else 3) = 3 := by
          apply if_neg
          omega
        rw [hstep] at h
        split at h
        · exact Option.noConfusion h
        next L heqdec =>
          split at h
          case isFalse => exact Option.noConfusion h
          case isTrue hcond =>
            have hle3 : i + 3 ≤ b.length := decode_some_bound heqdec
            have hlen2 : (splice3 res i (encode 113 (i - L))).length
                = res.length := splice3_length _ _ _ rfl (by omega)
            have hrec := fix_jumps_aux_frame b (i + 3) _ r (hlen2.trans hlen) h
            rw [if_pos (Or.inr h255), hstep]
            refine ⟨hrec.1.trans hlen2, fun k hk => ?_⟩
            have hk_i := hk i (List.mem_cons_self _ _)
            have hrest : ∀ j ∈ jumpPositions b (i + 3), k < j ∨ j + 3 ≤ k :=
              fun j hj => hk j (List.mem_cons_of_mem _ hj)
            rw [hrec.2 k hrest,
              splice3_get? res (encode 113 (i - L)) i k rfl (by omega) hk_i]
      · rw [if_neg h255] at h
        rw [if_neg (by tauto)]
        by_cases hsm : b.getD i 0 < 90
        · rw [if_pos hsm] at h
          rw [if_pos hsm]
          exact fix_jumps_aux_frame b (i + 1) res r hlen h
        · rw [if_neg hsm] at h
          rw [if_neg hsm]
          exact fix_jumps_aux_frame b (i + 3) res r hlen h
termination_by b.length - i
decreasing_by
  all_goals omega

/-- C10: whenever the resolution pass returns an output, the output has
exactly the input's length, and every byte outside the 3-byte spans of
the deferred-forward and deferred-backward jump instructions it rewrites
equals the corresponding input byte. -/
theorem fix_jumps_frame (b r : List Nat) (h : fix_jumps b = some r) :
    r.length = b.length ∧
    ∀ k, (∀ j ∈ jumpPositions b 0, k < j ∨ j + 3 ≤ k) →
      r.get? k = b.get? k :=
  fix_jumps_aux_frame b 0 b r rfl h

theorem fix_jumps_frame_witness :
    ([114, 4, 0, 9] : List Nat).length = ([114, 1, 0, 9] : List Nat).length ∧
    ([114, 4, 0, 9] : List Nat).get? 3 = ([114, 1, 0, 9] : List Nat).get? 3 := by
  have e : fix_jumps [114, 1, 0, 9] = some [114, 4, 0, 9] := by
    simp [fix_jumps, fix_jumps_aux, decode, splice3, encode, hasjabs,
      HAVE_ARGUMENT]
  have h := fix_jumps_frame [114, 1, 0, 9] [114, 4, 0, 9] e
  refine ⟨h.1, h.2 3 ?_⟩
  intro j hj
  have hjp : jumpPositions [114, 1, 0, 9] 0 = [0] := by
    simp [jumpPositions, hasjabs, HAVE_ARGUMENT]
  rw [hjp] at hj
  simp at hj
  omega

/-! ### C2: if/else jump targets -/

theorem getD_deep (X1 X2 Z : List Nat) (c t n : Nat)
    (hn : n = X1.length + X2.length) :
    (X1 ++ (X2 ++ (encode c t ++ Z))).getD n 0 = c := by
  have e : X1 ++ (X2 ++ (encode c t ++ Z)) = (X1 ++ X2) ++ encode c t ++ Z := by
    simp [List.append_assoc]
  have hl : n = (X1 ++ X2).length := by simp [hn]
  rw [e, hl]
  exact getD_encode_at _ _ _ _ _

theorem decode_deep (X1 X2 Z : List Nat) (c t n : Nat)
    (hn : n = X1.length + X2.length) :
    decode (X1 ++ (X2 ++ (encode c t ++ Z))) n = some t := by
  have e : X1 ++ (X2 ++ (encode c t ++ Z)) = (X1 ++ X2) ++ encode c t ++ Z := by
    simp [List.append_assoc]
  have hl : n = (X1 ++ X2).length := by simp [hn]
  rw [e, hl]
  exact decode_at _ _ _ _

theorem getD_deep4 (X1 X2 X3 Z : List Nat) (c t c2 t2 n : Nat)
    (hn : n = X1.length + X2.length + 3 + X3.length) :
    (X1 ++ (X2 ++ (encode c t ++ (X3 ++ (encode c2 t2 ++ Z))))).getD n 0
      = c2 := by
  have e : X1 ++ (X2 ++ (encode c t ++ (X3 ++ (encode c2 t2 ++ Z))))
      = (X1 ++ X2 ++ encode c t ++ X3) ++ encode c2 t2 ++ Z := by
    simp [List.append_assoc]
  have hl : n = (X1 ++ X2 ++ encode c t ++ X3).length := by
    simp only [List.length_append, encode, List.length_cons, List.length_nil]
    omega
  rw [e, hl]
  exact getD_encode_at _ _ _ _ _

theorem decode_deep4 (X1 X2 X3 Z : List Nat) (c t c2 t2 n : Nat)
    (hn : n = X1.length + X2.length + 3 + X3.length) :
    decode (X1 ++ (X2 ++ (encode c t ++ (X3 ++ (encode c2 t2 ++ Z))))) n
      = some t2 := by
  have e : X1 ++ (X2 ++ (encode c t ++ (X3 ++ (encode c2 t2 ++ Z))))
      = (X1 ++ X2 ++ encode c t ++ X3) ++ encode c2 t2 ++ Z := by
    simp [List.append_assoc]
  have hl : n = (X1 ++ X2 ++ encode c t ++ X3).length := by
    simp only [List.length_append, encode, List.length_cons, List.length_nil]
    omega
  rw [e, hl]
  exact decode_at _ _ _ _

theorem resolveFrom_cons (p : Nat) (ins : Instr) (rest : List Instr) :
    resolveFrom p (ins :: rest)
      = resolveInstr p ins :: resolveFrom (p + ins.size) rest := rfl

/-- C2: for an if/else statement compiled anywhere inside a well-formed
stream, resolution gives the conditional jump (opcode 114) the absolute
byte address of the first instruction of the else-branch span (the byte
right after the then-branch and its forward skip), and leaves the native
forward-skip (opcode 110) with relative argument `orelseB.length`, so its
target — three bytes past itself plus its argument — is the first
instruction after the else span, i.e. the end of the whole if/else
span. -/
theorem if_resolution (test : Expr) (body orelse : List Stmt) (g g' : Gen)
    (out : List Nat) (P S : List Instr) (R : List Nat)
    (hP : ∀ ins ∈ P, instrOK ins) (hS : ∀ ins ∈ S, instrOK ins)
    (hgen : ofStmt (.ifStmt test body orelse) g = some (out, g'))
    (hres : fix_jumps (assemble P ++ out ++ assemble S) = some R) :
    ∃ testB bodyB0 orelseB : List Nat,
      out = testB ++ encode 114 (bodyB0.length + 3) ++ bodyB0
          ++ encode 110 orelseB.length ++ orelseB ∧
      R.getD ((assemble P).length + testB.length) 0 = 114 ∧
      decode R ((assemble P).length + testB.length)
        = some ((assemble P).length + testB.length + 3 + bodyB0.length + 3) ∧
      R.getD ((assemble P).length + testB.length + 3 + bodyB0.length) 0 = 110 ∧
      decode R ((assemble P).length + testB.length + 3 + bodyB0.length)
        = some orelseB.length ∧
      (assemble P).length + testB.length + 3 + bodyB0.length + 3
          + orelseB.length
        = (assemble P).length + out.length := by
  simp only [ofStmt] at hgen
  split at hgen
  · exact Option.noConfusion hgen
  next orelseB g1 ho =>
    split at hgen
    · exact Option.noConfusion hgen
    next bodyB0 gx hb =>
      split at hgen
      · exact Option.noConfusion hgen
      next jf hjf =>
        split at hgen
        · exact Option.noConfusion hgen
        next testB gy ht =>
          split at hgen
          · exact Option.noConfusion hgen
          next jc hjc =>
            simp only [op.JUMP_FORWARD] at hjf
            obtain ⟨-, horl, rfl⟩ := take_arg_eq_some hjf
            simp only [op.POP_JUMP_IF_FALSE] at hjc
            have hlenb : (bodyB0 ++ encode 110 orelseB.length).length
                = bodyB0.length + 3 := by simp [encode]
            rw [hlenb] at hjc
            obtain ⟨-, hjca, rfl⟩ := take_arg_eq_some hjc
            obtain ⟨testI, hokT, rfl⟩ := (ofExpr_spec test gx testB gy ht).2
            obtain ⟨bodyI, hokB, rfl⟩ := (ofStmtList_spec body g1 bodyB0 gx hb).2
            obtain ⟨orelseI, hokO, rfl⟩ :=
              (ofStmtList_spec orelse g orelseB g1 ho).2
            cases hgen
            refine ⟨assemble testI, assemble bodyI, assemble orelseI,
              by simp [List.append_assoc], ?_⟩
            have hI : assemble P
                ++ (assemble testI
                    ++ encode 114 ((assemble bodyI).length + 3)
                    ++ (assemble bodyI ++ encode 110 (assemble orelseI).length)
                    ++ assemble orelseI)
                ++ assemble S
                = assemble ((P ++ (testI
                    ++ (Instr.witharg 114 ((assemble bodyI).length + 3)
                      :: (bodyI
                        ++ (Instr.witharg 110 (assemble orelseI).length
                          :: orelseI))))) ++ S) := by
              simp [assemble_append, assemble, Instr.bytes, List.append_assoc]
            rw [hI] at hres
            have hokL : ∀ ins ∈ (P ++ (testI
                ++ (Instr.witharg 114 ((assemble bodyI).length + 3)
                  :: (bodyI
                    ++ (Instr.witharg 110 (assemble orelseI).length
                      :: orelseI))))) ++ S, instrOK ins := by
              intro ins hins
              simp only [List.mem_append, List.mem_cons] at hins
              rcases hins with ((hi | (hi | (hi | (hi | (hi | hi))))) | hi)
              · exact hP ins hi
              · exact hokT ins hi
              · subst hi
                exact ⟨by norm_num, by norm_num, hjca⟩
              · exact hokB ins hi
              · subst hi
                exact ⟨by norm_num, by norm_num, horl⟩
              · exact hokO ins hi
              · exact hS ins hi
            rw [fix_jumps_assemble _ hokL] at hres
            split at hres
            case isFalse => exact Option.noConfusion hres
            case isTrue hcan =>
              cases hres
              simp only [resolveFrom_append, resolveFrom_cons, assemble_append,
                assemble, Instr.bytes, Instr.size, resolveInstr, hasjabs,
                List.mem_cons, List.not_mem_nil, Nat.reduceEqDiff, or_true,
                true_or, false_or, or_false, or_self, if_true, if_false,
                ite_true, ite_false, Nat.zero_add, List.append_nil,
                List.append_eq, List.append_assoc]
              set A0 := assemble (resolveFrom 0 P) with hA0def
              set A1 := assemble
                (resolveFrom (assemble P).length testI) with hA1def
              set A2 := assemble
                (resolveFrom ((assemble P).length + (assemble testI).length + 3)
                  bodyI) with hA2def
              have hA0 : A0.length = (assemble P).length :=
                assemble_resolveFrom_length 0 P
              have hA1 : A1.length = (assemble testI).length :=
                assemble_resolveFrom_length _ testI
              have hA2 : A2.length = (assemble bodyI).length :=
                assemble_resolveFrom_length _ bodyI
              refine ⟨?_, ?_, ?_, ?_, ?_⟩
              · exact getD_deep A0 A1 _ 114 _ _ (by rw [hA0, hA1])
              · have harith : (assemble P).length + (assemble testI).length + 3
                    + (assemble bodyI).length + 3
                    = (assemble P).length + (assemble testI).length + 3
                      + ((assemble bodyI).length + 3) := by omega
                rw [harith]
                exact decode_deep A0 A1 _ 114 _ _ (by rw [hA0, hA1])
              · exact getD_deep4 A0 A1 A2 _ 114 _ 110 _ _
                  (by rw [hA0, hA1, hA2])
              · exact decode_deep4 A0 A1 A2 _ 114 _ 110 _ _
                  (by rw [hA0, hA1, hA2])
              · simp [encode]
                omega


/-! ### C3: while-loop backward jump target -/

theorem getD_deepW (X1 X2 X3 Z : List Nat) (c0 a0 c1 a1 c2 t2 n : Nat)
    (hn : n = X1.length + 3 + X2.length + 3 + X3.length) :
    (X1 ++ (encode c0 a0 ++ (X2 ++ (encode c1 a1
        ++ (X3 ++ (encode c2 t2 ++ Z)))))).getD n 0 = c2 := by
  have e : X1 ++ (encode c0 a0 ++ (X2 ++ (encode c1 a1
        ++ (X3 ++ (encode c2 t2 ++ Z)))))
      = (X1 ++ encode c0 a0 ++ X2 ++ encode c1 a1 ++ X3)
        ++ encode c2 t2 ++ Z := by
    simp [List.append_assoc]
  have hl : n = (X1 ++ encode c0 a0 ++ X2 ++ encode c1 a1 ++ X3).length := by
    simp only [List.length_append, encode, List.length_cons, List.length_nil]
    omega
  rw [e, hl]
  exact getD_encode_at _ _ _ _ _

theorem decode_deepW (X1 X2 X3 Z : List Nat) (c0 a0 c1 a1 c2 t2 n : Nat)
    (hn : n = X1.length + 3 + X2.length + 3 + X3.length) :
    decode (X1 ++ (encode c0 a0 ++ (X2 ++ (encode c1 a1
        ++ (X3 ++ (encode c2 t2 ++ Z)))))) n = some t2 := by
  have e : X1 ++ (encode c0 a0 ++ (X2 ++ (encode c1 a1
        ++ (X3 ++ (encode c2 t2 ++ Z)))))
      = (X1 ++ encode c0 a0 ++ X2 ++ encode c1 a1 ++ X3)
        ++ encode c2 t2 ++ Z := by
    simp [List.append_assoc]
  have hl : n = (X1 ++ encode c0 a0 ++ X2 ++ encode c1 a1 ++ X3).length := by
    simp only [List.length_append, encode, List.length_cons, List.length_nil]
    omega
  rw [e, hl]
  exact decode_at _ _ _ _

/-- C3: for a while loop with a nonempty body compiled anywhere inside a
well-formed stream, resolution rewrites the backward placeholder (sitting
right after the loop body) into the true backward-jump opcode 113 whose
argument is the absolute byte address of the first instruction of the
loop's test expression — the byte right after the 3-byte SETUP_LOOP
bracket, i.e. `(assemble P).length + 3`. -/
theorem while_resolution (test : Expr) (body : List Stmt) (g g' : Gen)
    (out : List Nat) (P S : List Instr) (R : List Nat)
    (hbody : body ≠ [])
    (hP : ∀ ins ∈ P, instrOK ins) (hS : ∀ ins ∈ S, instrOK ins)
    (hgen : ofStmt (.whileStmt test body) g = some (out, g'))
    (hres : fix_jumps (assemble P ++ out ++ assemble S) = some R) :
    ∃ testB bodyB : List Nat,
      out = encode 120 (testB.length + 3 + bodyB.length + 3)
          ++ testB ++ encode 114 (bodyB.length + 3) ++ bodyB
          ++ encode 255 (testB.length + 3 + bodyB.length) ++ [87] ∧
      R.getD ((assemble P).length + 3 + testB.length + 3 + bodyB.length) 0
        = 113 ∧
      decode R ((assemble P).length + 3 + testB.length + 3 + bodyB.length)
        = some ((assemble P).length + 3) := by
  simp only [ofStmt] at hgen
  split at hgen
  · exact Option.noConfusion hgen
  next testB g1 ht =>
    split at hgen
    · exact Option.noConfusion hgen
    next bodyB gx hb =>
      split at hgen
      · exact Option.noConfusion hgen
      next branch hbr =>
        split at hgen
        · exact Option.noConfusion hgen
        next jb hjb =>
          split at hgen
          · exact Option.noConfusion hgen
          next su hsu =>
            simp only [op.POP_JUMP_IF_FALSE] at hbr
            obtain ⟨-, hbra, rfl⟩ := take_arg_eq_some hbr
            simp only [op.JUMP_BACK] at hjb
            have hlin : (testB ++ encode 114 (bodyB.length + 3)
                ++ bodyB).length = testB.length + 3 + bodyB.length := by
              simp only [List.length_append, encode, List.length_cons,
                List.length_nil]
            rw [hlin] at hjb
            obtain ⟨-, hjba, rfl⟩ := take_arg_eq_some hjb
            simp only [op.SETUP_LOOP] at hsu
            have hlin2 : ((testB ++ encode 114 (bodyB.length + 3) ++ bodyB)
                ++ encode 255 (testB.length + 3 + bodyB.length)).length
                = testB.length + 3 + bodyB.length + 3 := by
              simp only [List.length_append, encode, List.length_cons,
                List.length_nil]
            rw [hlin2] at hsu
            obtain ⟨-, hsua, rfl⟩ := take_arg_eq_some hsu
            obtain ⟨testI, hokT, rfl⟩ := (ofExpr_spec test g testB g1 ht).2
            obtain ⟨bodyI, hokB, rfl⟩ := (ofStmtList_spec body g1 bodyB gx hb).2
            cases hgen
            refine ⟨assemble testI, assemble bodyI,
              by simp [op.POP_BLOCK, List.append_assoc], ?_⟩
            have hI : assemble P
                ++ (encode 120 ((assemble testI).length + 3
                      + (assemble bodyI).length + 3)
                    ++ ((assemble testI ++ encode 114 ((assemble bodyI).length + 3)
                        ++ assemble bodyI)
                      ++ encode 255 ((assemble testI).length + 3
                          + (assemble bodyI).length))
                    ++ op.POP_BLOCK)
                ++ assemble S
                = assemble ((P
                    ++ (Instr.witharg 120 ((assemble testI).length + 3
                          + (assemble bodyI).length + 3)
                      :: (testI
                        ++ (Instr.witharg 114 ((assemble bodyI).length + 3)
                          :: (bodyI
                            ++ (Instr.witharg 255 ((assemble testI).length + 3
                                  + (assemble bodyI).length)
                              :: [Instr.simple 87])))))) ++ S) := by
              simp [assemble_append, assemble, Instr.bytes, op.POP_BLOCK,
                List.append_assoc]
            rw [hI] at hres
            have hokL : ∀ ins ∈ (P
                ++ (Instr.witharg 120 ((assemble testI).length + 3
                      + (assemble bodyI).length + 3)
                  :: (testI
                    ++ (Instr.witharg 114 ((assemble bodyI).length + 3)
                      :: (bodyI
                        ++ (Instr.witharg 255 ((assemble testI).length + 3
                              + (assemble bodyI).length)
                          :: [Instr.simple 87])))))) ++ S, instrOK ins := by
              intro ins hins
              simp only [List.mem_append, List.mem_cons, List.not_mem_nil,
                or_false] at hins
              rcases hins with
                ((hi | (hi | (hi | (hi | (hi | (hi | hi)))))) | hi)
              · exact hP ins hi
              · subst hi
                exact ⟨by norm_num, by norm_num, hsua⟩
              · exact hokT ins hi
              · subst hi
                exact ⟨by norm_num, by norm_num, hbra⟩
              · exact hokB ins hi
              · subst hi
                exact ⟨by norm_num, by norm_num, hjba⟩
              · subst hi
                exact (by norm_num : (87 : Nat) < 90)
              · exact hS ins hi
            rw [fix_jumps_assemble _ hokL] at hres
            split at hres
            case isFalse => exact Option.noConfusion hres
            case isTrue hcan =>
              cases hres
              simp only [resolveFrom_append, resolveFrom_cons, assemble_append,
                assemble, Instr.bytes, Instr.size, resolveInstr, hasjabs,
                List.mem_cons, List.not_mem_nil, Nat.reduceEqDiff, or_true,
                true_or, false_or, or_false, or_self, if_true, if_false,
                ite_true, ite_false, Nat.zero_add, List.append_nil,
                List.append_eq, List.append_assoc]
              set A0 := assemble (resolveFrom 0 P) with hA0def
              set A1 := assemble
                (resolveFrom ((assemble P).length + 3) testI) with hA1def
              set A2 := assemble
                (resolveFrom ((assemble P).length + 3 + (assemble testI).length
                  + 3) bodyI) with hA2def
              have hA0 : A0.length = (assemble P).length :=
                assemble_resolveFrom_length 0 P
              have hA1 : A1.length = (assemble testI).length :=
                assemble_resolveFrom_length _ testI
              have hA2 : A2.length = (assemble bodyI).length :=
                assemble_resolveFrom_length _ bodyI
              refine ⟨?_, ?_⟩
              · exact getD_deepW A0 A1 A2 _ 120 _ 114 _ 113 _ _
                  (by rw [hA0, hA1, hA2])
              · conv_rhs => rw [show ((assemble P).length + 3 : Nat)
                  = ((assemble P).length + 3 + (assemble testI).length + 3
                      + (assemble bodyI).length)
                    - ((assemble testI).length + 3 + (assemble bodyI).length)
                  from by omega]
                exact decode_deepW A0 A1 A2 _ 120 _ 114 _ 113 _ _
                  (by rw [hA0, hA1, hA2])


theorem if_resolution_witness :
    ∃ testB bodyB0 orelseB : List Nat,
      ([101, 0, 0, 114, 7, 0, 100, 1, 0, 1, 110, 4, 0, 100, 0, 0, 1]
          : List Nat)
        = testB ++ encode 114 (bodyB0.length + 3) ++ bodyB0
          ++ encode 110 orelseB.length ++ orelseB ∧
      ([101, 0, 0, 114, 13, 0, 100, 1, 0, 1, 110, 4, 0, 100, 0, 0, 1]
          : List Nat).getD
        ((assemble ([] : List Instr)).length + testB.length) 0 = 114 ∧
      decode ([101, 0, 0, 114, 13, 0, 100, 1, 0, 1, 110, 4, 0, 100, 0, 0, 1]
          : List Nat)
        ((assemble ([] : List Instr)).length + testB.length)
        = some ((assemble ([] : List Instr)).length + testB.length + 3
          + bodyB0.length + 3) ∧
      ([101, 0, 0, 114, 13, 0, 100, 1, 0, 1, 110, 4, 0, 100, 0, 0, 1]
          : List Nat).getD
        ((assemble ([] : List Instr)).length + testB.length + 3
          + bodyB0.length) 0 = 110 ∧
      decode ([101, 0, 0, 114, 13, 0, 100, 1, 0, 1, 110, 4, 0, 100, 0, 0, 1]
          : List Nat)
        ((assemble ([] : List Instr)).length + testB.length + 3
          + bodyB0.length)
        = some orelseB.length ∧
      (assemble ([] : List Instr)).length + testB.length + 3 + bodyB0.length
          + 3 + orelseB.length
        = (assemble ([] : List Instr)).length
          + ([101, 0, 0, 114, 7, 0, 100, 1, 0, 1, 110, 4, 0, 100, 0, 0, 1]
            : List Nat).length :=
  if_resolution (.name "a") [.exprStmt (.num 1)] [.exprStmt (.num 2)]
    ⟨[], [], []⟩ ⟨[Const.num 2, Const.num 1], ["a"], []⟩ _ [] [] _
    (by simp) (by simp)
    (by simp [ofStmt, ofExpr, ofStmtList, CodeGen.load_const, table_get,
      tblIdx, op.LOAD_CONST, op.LOAD_NAME, op.JUMP_FORWARD,
      op.POP_JUMP_IF_FALSE, op.POP_TOP, take_arg, encode])
    (by simp [assemble, fix_jumps, fix_jumps_aux, decode, splice3, encode,
      hasjabs, HAVE_ARGUMENT])

theorem while_resolution_witness :
    ∃ testB bodyB : List Nat,
      ([120, 13, 0, 101, 0, 0, 114, 7, 0, 100, 0, 0, 1, 255, 10, 0, 87]
          : List Nat)
        = encode 120 (testB.length + 3 + bodyB.length + 3)
          ++ testB ++ encode 114 (bodyB.length + 3) ++ bodyB
          ++ encode 255 (testB.length + 3 + bodyB.length) ++ [87] ∧
      ([120, 13, 0, 101, 0, 0, 114, 16, 0, 100, 0, 0, 1, 113, 3, 0, 87]
          : List Nat).getD
        ((assemble ([] : List Instr)).length + 3 + testB.length + 3
          + bodyB.length) 0 = 113 ∧
      decode ([120, 13, 0, 101, 0, 0, 114, 16, 0, 100, 0, 0, 1, 113, 3, 0, 87]
          : List Nat)
        ((assemble ([] : List Instr)).length + 3 + testB.length + 3
          + bodyB.length)
        = some ((assemble ([] : List Instr)).length + 3) :=
  while_resolution (.name "a") [.exprStmt (.num 1)]
    ⟨[], [], []⟩ ⟨[Const.num 1], ["a"], []⟩ _ [] [] _
    (by simp) (by simp) (by simp)
    (by simp [ofStmt, ofExpr, ofStmtList, CodeGen.load_const, table_get,
      tblIdx, op.LOAD_CONST, op.LOAD_NAME, op.POP_JUMP_IF_FALSE, op.JUMP_BACK,
      op.SETUP_LOOP, op.POP_BLOCK, op.POP_TOP, take_arg, encode])
    (by simp [assemble, fix_jumps, fix_jumps_aux, decode, splice3, encode,
      hasjabs, HAVE_ARGUMENT])

theorem no_placeholder_left_witness :
    255 ∉ opcodesFrom [120, 20, 0, 101, 0, 0, 114, 23, 0, 101, 0, 0, 100, 0, 0,
      24, 4, 90, 0, 0, 113, 3, 0, 87, 100, 1, 0, 83] 0 :=
  no_placeholder_left
    [.whileStmt (.name "a")
      [.assign [.name "a"] (.binop (.name "a") .sub (.num 1))]]
    _ [Const.num 1, Const.cnone] ["a"] []
    (by simp [compileModule, genCompile, ofStmtList, ofStmt, ofExpr,
      CodeGen.load_const, CodeGen.store, table_get, tblIdx, op.LOAD_CONST,
      op.LOAD_NAME, op.STORE_NAME, op.POP_JUMP_IF_FALSE, op.JUMP_BACK,
      op.SETUP_LOOP, op.POP_BLOCK, op.DUP_TOP, op.RETURN_VALUE, take_arg,
      encode, BinOp.byte, collect, fix_jumps, fix_jumps_aux, decode, splice3,
      hasjabs, HAVE_ARGUMENT])

/-! ### C7: the docstring slot -/

/-- C7: `compile_body` on a function body that begins with an expression
statement holding a string literal assigns that literal index 0 of the
function's own constant table; on any other (nonempty) body the default
no-value constant `None` gets index 0 instead. -/
theorem compile_body_const0 (s : String) (rest : List Stmt)
    (t : Stmt) (rest2 : List Stmt) (hnd : isDocstring t = false) :
    (∀ bc cs ns vs,
        compile_body (Stmt.exprStmt (Expr.str s) :: rest)
          = some (.code bc cs ns vs) → cs.head? = some (Const.str s)) ∧
    (∀ bc cs ns vs,
        compile_body (t :: rest2) = some (.code bc cs ns vs) →
          cs.head? = some Const.cnone) := by
  constructor
  · intro bc cs ns vs h
    simp only [compile_body, isDocstring, if_true, ite_true] at h
    simp only [genCompile] at h
    split at h
    · exact Option.noConfusion h
    next bs g1 heq1 =>
      split at h
      · exact Option.noConfusion h
      next lc g2 heq2 =>
        split at h
        · exact Option.noConfusion h
        next fixed heq3 =>
          simp only [ofStmtList] at heq1
          split at heq1
          · exact Option.noConfusion heq1
          next sb gA heqA =>
            split at heq1
            · exact Option.noConfusion heq1
            next rb gB heqB =>
              simp only [ofStmt] at heqA
              split at heqA
              · exact Option.noConfusion heqA
              next eb gC heqC =>
                simp only [ofExpr, CodeGen.load_const, table_get, tblIdx,
                  op.LOAD_CONST, take_arg, encode] at heqC
                cases heqC
                cases heqA
                cases heq1
                obtain ⟨⟨u, hu⟩, -, -⟩ := (ofStmtList_spec rest _ rb _ heqB).1
                obtain ⟨⟨u2, hu2⟩, -, -⟩ := (load_const_spec heq2).1
                cases h
                rw [collect, hu2, hu]
                simp
  · intro bc cs ns vs h
    simp only [compile_body, hnd, Bool.false_eq_true, if_false, ite_false] at h
    simp only [table_get, tblIdx] at h
    simp only [genCompile] at h
    split at h
    · exact Option.noConfusion h
    next bs g1 heq1 =>
      split at h
      · exact Option.noConfusion h
      next lc g2 heq2 =>
        split at h
        · exact Option.noConfusion h
        next fixed heq3 =>
          obtain ⟨⟨u, hu⟩, -, -⟩ :=
            (ofStmtList_spec (t :: rest2) _ bs g1 heq1).1
          obtain ⟨⟨u2, hu2⟩, -, -⟩ := (load_const_spec heq2).1
          cases h
          rw [collect, hu2, hu]
          simp

theorem compile_body_const0_witness :
    ([Const.str "doc", Const.cnone].head? = some (Const.str "doc")) ∧
    ([Const.cnone, Const.num 7].head? = some Const.cnone) := by
  have h := compile_body_const0 "doc" [] (.exprStmt (.num 7)) [] rfl
  refine ⟨h.1 [100, 0, 0, 1, 100, 1, 0, 83] [Const.str "doc", Const.cnone] []
    [] ?_,
    h.2 [100, 1, 0, 1, 100, 0, 0, 83] [Const.cnone, Const.num 7] [] [] ?_⟩
  · simp [compile_body, isDocstring, genCompile, ofStmtList, ofStmt, ofExpr,
      CodeGen.load_const, table_get, tblIdx, op.LOAD_CONST, op.POP_TOP,
      op.RETURN_VALUE, take_arg, encode, collect, fix_jumps, fix_jumps_aux,
      decode, splice3, hasjabs, HAVE_ARGUMENT]
  · simp [compile_body, isDocstring, genCompile, ofStmtList, ofStmt, ofExpr,
      CodeGen.load_const, table_get, tblIdx, op.LOAD_CONST, op.POP_TOP,
      op.RETURN_VALUE, take_arg, encode, collect, fix_jumps, fix_jumps_aux,
      decode, splice3, hasjabs, HAVE_ARGUMENT]

/-! ### C8: the concrete `a = 2 + 3` scenario -/

/-- C8 (amended): compiling `a = 2 + 3` as a compilation unit yields the
constant table [2, 3, None] (the final load of the default value interns
`None` as a third constant), the name table ["a"], and a 15-byte body:
load-const 2, load-const 3, binary-add, dup, store `a`, load-const None,
return. -/
theorem compile_assign_example :
    compileModule [.assign [.name "a"] (.binop (.num 2) .add (.num 3))]
      = some (.code
          [100, 0, 0, 100, 1, 0, 23, 4, 90, 0, 0, 100, 2, 0, 83]
          [.num 2, .num 3, .cnone] ["a"] []) := by
  simp [compileModule, genCompile, ofStmtList, ofStmt, ofExpr,
    CodeGen.load_const, CodeGen.store, table_get, tblIdx, op.LOAD_CONST,
    op.STORE_NAME, op.DUP_TOP, op.RETURN_VALUE, take_arg, encode, BinOp.byte,
    collect, fix_jumps, fix_jumps_aux, decode, splice3, hasjabs, HAVE_ARGUMENT]

/-- C8 (counterexample): the claim is false on the code: the unit
compiles, but its constant table is not [2, 3] and its body is not 10
bytes long. -/
theorem compile_assign_claim_false :
    ∃ bc cs ns vs,
      compileModule [.assign [.name "a"] (.binop (.num 2) .add (.num 3))]
        = some (.code bc cs ns vs)
      ∧ cs ≠ [Const.num 2, Const.num 3] ∧ bc.length ≠ 10 := by
  refine ⟨[100, 0, 0, 100, 1, 0, 23, 4, 90, 0, 0, 100, 2, 0, 83],
    [.num 2, .num 3, .cnone], ["a"], [], ?_, ?_, ?_⟩
  · simp [compileModule, genCompile, ofStmtList, ofStmt, ofExpr,
      CodeGen.load_const, CodeGen.store, table_get, tblIdx, op.LOAD_CONST,
      op.STORE_NAME, op.DUP_TOP, op.RETURN_VALUE, take_arg, encode,
      BinOp.byte, collect, fix_jumps, fix_jumps_aux, decode, splice3,
      hasjabs, HAVE_ARGUMENT]
  · simp
  · simp

/-! ### C9: unsupported constructs are fatal -/

/-- C9: a function definition with parameters or decorators, and an
assignment with more than one target or whose target is not a plain
identifier, are fatal compile-time errors: the handler yields nothing,
and a unit containing such a statement compiles to no artifact at all. -/
theorem unsupported_fatal (nm : String) (args decorators : List String)
    (body : List Stmt) (targets : List Tgt) (v : Expr) (g g2 : Gen)
    (hbad : args ≠ [] ∨ decorators ≠ [])
    (hbadT : 1 < targets.length ∨ ∀ id, targets ≠ [Tgt.name id]) :
    ofStmt (.functionDef nm args decorators body) g = none ∧
    ofStmt (.assign targets v) g2 = none ∧
    (∀ rest, compileModule (Stmt.functionDef nm args decorators body :: rest)
      = none) ∧
    (∀ rest, compileModule (Stmt.assign targets v :: rest) = none) := by
  have hf : ∀ gg : Gen, ofStmt (.functionDef nm args decorators body) gg
      = none := by
    intro gg
    simp only [ofStmt]
    rw [if_neg]
    rintro ⟨h1, h2⟩
    rcases hbad with h | h
    · exact h h1
    · exact h h2
  have ha : ∀ gg : Gen, ofStmt (.assign targets v) gg = none := by
    intro gg
    cases targets with
    | nil => simp [ofStmt]
    | cons t1 rest =>
      cases t1 with
      | other => simp [ofStmt]
      | name id =>
        cases rest with
        | cons t2 rest2 => simp [ofStmt]
        | nil =>
          exfalso
          rcases hbadT with h | h
          · simp at h
          · exact h id rfl
  have hlist : ∀ (st : Stmt) (rl : List Stmt) (gg : Gen),
      ofStmt st gg = none → ofStmtList (st :: rl) gg = none := by
    intro st rl gg hst
    simp only [ofStmtList, hst]
  have hmod : ∀ (st : Stmt) (rl : List Stmt),
      ofStmtList (st :: rl) (⟨[], [], []⟩ : Gen) = none →
      compileModule (st :: rl) = none := by
    intro st rl hl
    simp only [compileModule, genCompile, hl]
  exact ⟨hf g, ha g2,
    fun rest => hmod _ rest (hlist _ rest _ (hf _)),
    fun rest => hmod _ rest (hlist _ rest _ (ha _))⟩

theorem unsupported_fatal_witness :
    ofStmt (.functionDef "f" ["x"] [] []) ⟨[], [], []⟩ = none ∧
    ofStmt (.assign [Tgt.name "a", Tgt.name "b"] (.num 0)) ⟨[], [], []⟩
      = none ∧
    compileModule [Stmt.functionDef "f" ["x"] [] []] = none ∧
    compileModule [Stmt.assign [Tgt.name "a", Tgt.name "b"] (.num 0)]
      = none := by
  have h := unsupported_fatal "f" ["x"] [] [] [Tgt.name "a", Tgt.name "b"]
    (.num 0) ⟨[], [], []⟩ ⟨[], [], []⟩ (Or.inl (by simp))
    (Or.inl (by norm_num))
  exact ⟨h.1, h.2.1, h.2.2.1 [], h.2.2.2 []⟩

end Bytecomp
